import Mathlib

/-!
Verification of `src/deltacode/cli_test_utils.py` (deltacode test harness).

The Python functions `load_json_result_from_string`, `streamline_errors`,
`streamline_headers` and `check_json_scan` are embedded shallowly:

* JSON values decoded with `object_pairs_hook=OrderedDict` are modelled by
  `JVal`, with objects as ordered association lists.
* A decoded scan-result document is a `ScanResults`: its root ordered mapping
  (everything except the `deltas` entry, in original order) plus the list of
  deltas.  A delta entry is a `Delta` carrying its `score` (an integer in
  deltacode output), its `factors` (a list of strings in deltacode output),
  the path it reports, and its remaining entries.
* Python's `list.sort(key=..., reverse=...)` (Timsort) is a stable sort;
  it is modelled by the stable insertion sort `pySort` below, which we prove
  equal to `List.mergeSort` so that the stability theory of `mergeSort` from
  the standard library applies.
* Exceptions (`KeyError`, `TypeError`/`AttributeError`, `AssertionError`)
  are modelled by `Except PyErr`.

Sections 1-3 develop generic comparator and stable-sort theory, in particular
the fusion of two sequential stable sorts into one stable sort by the
lexicographically combined comparator.
-/

/-! ### Section 1: three-way comparators and their lexicographic extension -/

/-- Lawfulness of a three-way comparator: equivalence is equality, comparison
is antisymmetric under swapping the arguments, and strict comparison is
transitive. -/
structure LawCmp {α : Type} (c : α → α → Ordering) : Prop where
  eq_exact : ∀ a b, c a b = Ordering.eq → a = b
  symm : ∀ a b, c b a = (c a b).swap
  lt_trans : ∀ a b d, c a b = Ordering.lt → c b d = Ordering.lt → c a d = Ordering.lt

theorem LawCmp.refl {α : Type} {c : α → α → Ordering} (h : LawCmp c) (a : α) :
    c a a = Ordering.eq := by
  have hs := h.symm a a
  cases hcc : c a a <;> simp [hcc, Ordering.swap] at hs ⊢

theorem LawCmp.eq_iff {α : Type} {c : α → α → Ordering} (h : LawCmp c) (a b : α) :
    c a b = Ordering.eq ↔ a = b := by
  constructor
  · exact h.eq_exact a b
  · rintro rfl; exact h.refl a

/-- Three-way comparison of characters by code point, as Python 2 compares
unicode characters. -/
def charCmp (a b : Char) : Ordering :=
  if a < b then Ordering.lt else if b < a then Ordering.gt else Ordering.eq

theorem charCmp_law : LawCmp charCmp := by
  refine ⟨?_, ?_, ?_⟩
  · intro a b h
    unfold charCmp at h
    split at h
    · simp at h
    · split at h
      · simp at h
      · exact le_antisymm (le_of_not_lt (by assumption)) (le_of_not_lt (by assumption))
  · intro a b
    unfold charCmp
    rcases lt_trichotomy a b with h | h | h
    · simp [h, not_lt_of_lt h, Ordering.swap]
    · simp [h, lt_irrefl, Ordering.swap]
    · simp [h, not_lt_of_lt h, Ordering.swap]
  · intro a b d hab hbd
    unfold charCmp at hab hbd ⊢
    split at hab
    · split at hbd
      · rename_i h1 h2
        simp [lt_trans h1 h2]
      · split at hbd <;> simp_all
    · split at hab <;> simp_all

/-- Lexicographic extension of a three-way comparator to lists, as Python
compares lists and strings. -/
def lexCmp {α : Type} (c : α → α → Ordering) : List α → List α → Ordering
  | [], [] => Ordering.eq
  | [], _ :: _ => Ordering.lt
  | _ :: _, [] => Ordering.gt
  | a :: s, b :: t =>
    match c a b with
    | Ordering.eq => lexCmp c s t
    | o => o

theorem lexCmp_law {α : Type} {c : α → α → Ordering} (h : LawCmp c) :
    LawCmp (lexCmp c) := by
  refine ⟨?_, ?_, ?_⟩
  · intro a b
    induction a generalizing b with
    | nil => cases b <;> simp [lexCmp]
    | cons x s ih =>
      cases b with
      | nil => simp [lexCmp]
      | cons y t =>
        simp only [lexCmp]
        cases hxy : c x y <;> simp_all
        intro hst
        exact ⟨h.eq_exact x y hxy, ih t hst⟩
  · intro a b
    induction a generalizing b with
    | nil => cases b <;> simp [lexCmp, Ordering.swap]
    | cons x s ih =>
      cases b with
      | nil => simp [lexCmp, Ordering.swap]
      | cons y t =>
        simp only [lexCmp]
        have hs := h.symm x y
        cases hxy : c x y <;> simp [hxy, Ordering.swap] at hs <;>
          simp [hs, Ordering.swap, ih t]
  · intro a b d hab hbd
    induction a generalizing b d with
    | nil =>
      cases b with
      | nil => simpa using hbd
      | cons y t => cases d with
        | nil => simp [lexCmp] at hbd
        | cons z u => simp [lexCmp]
    | cons x s ih =>
      cases b with
      | nil => simp [lexCmp] at hab
      | cons y t =>
        cases d with
        | nil => simp [lexCmp] at hbd
        | cons z u =>
          simp only [lexCmp] at hab hbd ⊢
          cases hxy : c x y with
          | lt =>
            cases hyz : c y z with
            | lt => simp [h.lt_trans x y z hxy hyz]
            | gt => simp [hxy, hyz] at hbd
            | eq => cases h.eq_exact y z hyz; simp [hxy]
          | gt => simp [hxy] at hab
          | eq =>
            cases h.eq_exact x y hxy
            cases hyz : c x z with
            | lt => simp [hyz]
            | gt => simp [hyz] at hbd
            | eq =>
              simp only [hyz]
              simp [hxy] at hab
              simp [hyz] at hbd
              exact ih t u hab hbd

/-- Three-way comparison of strings by code points (Python 2 unicode
comparison). -/
def strCmp (a b : String) : Ordering := lexCmp charCmp a.data b.data

theorem strCmp_law : LawCmp strCmp := by
  have hl := lexCmp_law charCmp_law
  refine ⟨?_, ?_, ?_⟩
  · intro a b h
    exact String.ext (hl.eq_exact a.data b.data h)
  · intro a b
    exact hl.symm a.data b.data
  · intro a b d hab hbd
    exact hl.lt_trans a.data b.data d.data hab hbd

/-- Three-way comparison of factor lists (lists of strings), as Python 2
compares the `factors` values of two deltas. -/
def factorsCmp : List String → List String → Ordering := lexCmp strCmp

theorem factorsCmp_law : LawCmp factorsCmp := lexCmp_law strCmp_law

/-- The non-strict comparator induced by a three-way comparator. -/
def cmpLe {α : Type} (c : α → α → Ordering) (a b : α) : Bool := (c a b).isLE

theorem cmpLe_total {α : Type} {c : α → α → Ordering} (h : LawCmp c) :
    ∀ a b, (cmpLe c a b || cmpLe c b a) = true := by
  intro a b
  have hs := h.symm a b
  unfold cmpLe
  cases hab : c a b <;> simp [hab, Ordering.swap] at hs <;> simp [hs, hab, Ordering.isLE]

theorem cmpLe_trans {α : Type} {c : α → α → Ordering} (h : LawCmp c) :
    ∀ a b d, cmpLe c a b = true → cmpLe c b d = true → cmpLe c a d = true := by
  intro a b d hab hbd
  unfold cmpLe at hab hbd ⊢
  cases h1 : c a b <;> simp [h1, Ordering.isLE] at hab <;>
    cases h2 : c b d <;> simp [h2, Ordering.isLE] at hbd <;> try simp [Ordering.isLE]
  · simp [h.lt_trans a b d h1 h2, Ordering.isLE]
  · cases h.eq_exact b d h2; simp [h1, Ordering.isLE]
  · cases h.eq_exact a b h1; simp [h2, Ordering.isLE]
  · cases h.eq_exact a b h1; simp [h2, Ordering.isLE]

/-! ### Section 2: a model of Python's stable `list.sort`

Python's Timsort is a stable sort.  We model it by the stable insertion
sort `pySort` (any two stable sorts with the same comparator agree), and
prove `pySort le l = List.mergeSort l le` so that the stability theory of
`List.mergeSort` applies to it. -/

/-- Insert `a` into `l` before the first element `b` with `¬ le a b`.
This is the insertion step of a stable insertion sort. -/
def insertSorted {α : Type} (le : α → α → Bool) (a : α) : List α → List α
  | [] => [a]
  | b :: l => if le a b then a :: b :: l else b :: insertSorted le a l

/-- Stable insertion sort, our model of Python's stable `list.sort` with
comparator `le` (for Python's `key=k` sorts, `le a b` is `k a <= k b`;
for `reverse=True` sorts it is `k b <= k a`). -/
def pySort {α : Type} (le : α → α → Bool) : List α → List α
  | [] => []
  | a :: l => insertSorted le a (pySort le l)

theorem insertSorted_perm {α : Type} (le : α → α → Bool) (a : α) (l : List α) :
    (insertSorted le a l).Perm (a :: l) := by
  induction l with
  | nil => simp [insertSorted]
  | cons b t ih =>
    simp only [insertSorted]
    split
    · exact List.Perm.refl _
    · exact (ih.cons b).trans (List.Perm.swap a b t)

theorem pySort_perm {α : Type} (le : α → α → Bool) (l : List α) :
    (pySort le l).Perm l := by
  induction l with
  | nil => simp [pySort]
  | cons a t ih => exact (insertSorted_perm le a (pySort le t)).trans (ih.cons a)

theorem pairwise_insertSorted {α : Type} {le : α → α → Bool}
    (tr : ∀ a b c, le a b = true → le b c = true → le a c = true)
    (tot : ∀ a b, (le a b || le b a) = true)
    (a : α) (l : List α) (h : l.Pairwise (le · · = true)) :
    (insertSorted le a l).Pairwise (le · · = true) := by
  induction l with
  | nil => simp [insertSorted]
  | cons b t ih =>
    simp only [insertSorted]
    split
    · rename_i hab
      refine List.Pairwise.cons ?_ h
      intro x hx
      rcases List.mem_cons.mp hx with rfl | hx
      · exact hab
      · exact tr a b x hab (List.rel_of_pairwise_cons h hx)
    · rename_i hab
      refine List.Pairwise.cons ?_ (ih h.tail)
      intro x hx
      have hx' := (insertSorted_perm le a t).subset hx
      rcases List.mem_cons.mp hx' with rfl | hx'
      · have := tot x b
        simp only [Bool.or_eq_true] at this
        rcases this with h' | h'
        · exact absurd h' hab
        · exact h'
      · exact List.rel_of_pairwise_cons h hx'

theorem pairwise_pySort {α : Type} {le : α → α → Bool}
    (tr : ∀ a b c, le a b = true → le b c = true → le a c = true)
    (tot : ∀ a b, (le a b || le b a) = true)
    (l : List α) : (pySort le l).Pairwise (le · · = true) := by
  induction l with
  | nil => simp [pySort]
  | cons a t ih => exact pairwise_insertSorted tr tot a (pySort le t) ih

theorem insertSorted_map_snd {α : Type} {le : α → α → Bool}
    (i : Nat) (a : α) (L : List (Nat × α)) (hL : ∀ p ∈ L, i ≤ p.1) :
    (insertSorted (List.enumLE le) (i, a) L).map Prod.snd =
      insertSorted le a (L.map Prod.snd) := by
  induction L with
  | nil => simp [insertSorted]
  | cons p L ih =>
    obtain ⟨j, b⟩ := p
    have hij : i ≤ j := hL (j, b) (List.mem_cons_self _ _)
    have hq : List.enumLE le (i, a) (j, b) = le a b := by
      simp only [List.enumLE]
      by_cases h1 : le a b = true
      · by_cases h2 : le b a = true
        · simp [h1, h2, hij]
        · simp [h1, h2]
      · simp [h1]
    simp only [insertSorted, hq, List.map_cons]
    split
    · simp
    · simp only [List.map_cons, List.cons.injEq, true_and]
      exact ih (fun q hq' => hL q (List.mem_cons_of_mem _ hq'))

theorem pySort_enumFrom {α : Type} (le : α → α → Bool) (l : List α) (i : Nat) :
    (pySort (List.enumLE le) (List.enumFrom i l)).map Prod.snd = pySort le l := by
  induction l generalizing i with
  | nil => simp [pySort]
  | cons a t ih =>
    simp only [List.enumFrom, pySort]
    rw [insertSorted_map_snd]
    · rw [ih (i + 1)]
    · intro p hp
      have hp' := (pySort_perm (List.enumLE le) (List.enumFrom (i + 1) t)).subset hp
      obtain ⟨j, b⟩ := p
      have := (List.mem_enumFrom hp').1
      omega

theorem enum_fst_inj {α : Type} {l : List α} {x y : Nat × α}
    (hx : x ∈ l.enum) (hy : y ∈ l.enum) (h : x.1 = y.1) : x = y := by
  obtain ⟨n, hn⟩ := List.mem_iff_getElem?.mp hx
  obtain ⟨m, hm⟩ := List.mem_iff_getElem?.mp hy
  rw [List.getElem?_enum] at hn hm
  cases hv : l[n]? with
  | none => simp [hv] at hn
  | some v =>
    cases hw : l[m]? with
    | none => simp [hv, hw] at hn hm
    | some w =>
      simp [hv] at hn
      simp [hw] at hm
      subst hn; subst hm
      simp at h
      subst h
      rw [hv] at hw
      simp at hw
      simp [hw]

theorem nodup_enum {α : Type} (l : List α) : l.enum.Nodup := by
  apply List.Nodup.of_map Prod.fst
  rw [List.enum_map_fst]
  exact List.nodup_range _

theorem pair_sublist_getElem {α : Type} (l : List α) (i j : Nat)
    (hi : i < l.length) (hj : j < l.length) (hij : i < j) :
    [l[i], l[j]].Sublist l := by
  induction l generalizing i j with
  | nil => simp at hi
  | cons a t ih =>
    cases i with
    | zero =>
      cases j with
      | zero => omega
      | succ j' =>
        simp only [List.getElem_cons_zero, List.getElem_cons_succ]
        exact List.Sublist.cons₂ a (List.singleton_sublist.mpr (List.getElem_mem _))
    | succ i' =>
      cases j with
      | zero => omega
      | succ j' =>
        simp only [List.getElem_cons_succ]
        simp only [List.length_cons] at hi hj
        exact List.Sublist.cons a (ih i' j' (by omega) (by omega) (by omega))

theorem sublist_pair_of_mem {α : Type} {l : List α} {x y : α}
    (hx : x ∈ l) (hy : y ∈ l) (hne : x ≠ y) :
    [x, y].Sublist l ∨ [y, x].Sublist l := by
  induction l with
  | nil => simp at hx
  | cons a t ih =>
    rcases List.mem_cons.mp hx with rfl | hx'
    · have hy' : y ∈ t := by
        rcases List.mem_cons.mp hy with rfl | h
        · exact absurd rfl hne
        · exact h
      exact Or.inl (List.Sublist.cons₂ x (List.singleton_sublist.mpr hy'))
    · rcases List.mem_cons.mp hy with rfl | hy'
      · exact Or.inr (List.Sublist.cons₂ y (List.singleton_sublist.mpr hx'))
      · exact (ih hx' hy').imp (List.Sublist.cons a) (List.Sublist.cons a)

theorem pair_sublist_antisymm {α : Type} {l : List α} {x y : α}
    (hnd : l.Nodup) (h1 : [x, y].Sublist l) (h2 : [y, x].Sublist l) : x = y := by
  induction l with
  | nil => exact absurd (h1.subset (List.mem_cons_self _ _)) (by simp)
  | cons a t ih =>
    cases h1 with
    | cons _ h1' =>
      cases h2 with
      | cons _ h2' => exact ih hnd.tail h1' h2'
      | cons₂ _ h2' =>
        have hy : y ∈ t := h1'.subset (by simp)
        have := List.rel_of_pairwise_cons hnd hy
        exact absurd rfl this
    | cons₂ _ h1' =>
      cases h2 with
      | cons _ h2' =>
        have hx : x ∈ t := h2'.subset (by simp)
        have := List.rel_of_pairwise_cons hnd hx
        exact absurd rfl this
      | cons₂ _ h2' => rfl

theorem pySort_eq_mergeSort {α : Type} {le : α → α → Bool}
    (tr : ∀ a b c, le a b = true → le b c = true → le a c = true)
    (tot : ∀ a b, (le a b || le b a) = true)
    (l : List α) : pySort le l = l.mergeSort le := by
  have hperm : (pySort (List.enumLE le) l.enum).Perm (l.enum.mergeSort (List.enumLE le)) :=
    (pySort_perm _ _).trans (List.mergeSort_perm _ _).symm
  have hanti : ∀ a b : Nat × α, a ∈ pySort (List.enumLE le) l.enum →
      b ∈ l.enum.mergeSort (List.enumLE le) →
      List.enumLE le a b = true → List.enumLE le b a = true → a = b := by
    intro a b ha hb h1 h2
    have ha' : a ∈ l.enum := (pySort_perm _ _).subset ha
    have hb' : b ∈ l.enum := (List.mergeSort_perm _ _).subset hb
    apply enum_fst_inj ha' hb'
    simp only [List.enumLE] at h1 h2
    by_cases hab : le a.2 b.2 = true
    · by_cases hba : le b.2 a.2 = true
      · simp [hab, hba] at h1 h2
        omega
      · simp [hab, hba] at h2
    · simp [hab] at h1
  have heq : pySort (List.enumLE le) l.enum = l.enum.mergeSort (List.enumLE le) :=
    List.Perm.eq_of_sorted hanti
      (pairwise_pySort (List.enumLE_trans tr) (List.enumLE_total tot) _)
      (List.sorted_mergeSort (List.enumLE_trans tr) (List.enumLE_total tot) _)
      hperm
  have h1 : (pySort (List.enumLE le) l.enum).map Prod.snd = pySort le l :=
    pySort_enumFrom le l 0
  calc pySort le l = (pySort (List.enumLE le) l.enum).map Prod.snd := h1.symm
    _ = (l.enum.mergeSort (List.enumLE le)).map Prod.snd := by rw [heq]
    _ = l.mergeSort le := List.mergeSort_enum

/-! ### Section 3: fusing two sequential stable sorts

Sorting stably by a secondary key and then stably by a primary key is the
same as a single stable sort by the lexicographically combined comparator
(primary first, ties decided by the secondary comparator). -/

/-- The lexicographic combination of a primary comparator `le1` with a
secondary comparator `le2`: strictly `le1`-smaller elements come first and
`le1`-ties are decided by `le2`. -/
def lexComb {α : Type} (le1 le2 : α → α → Bool) (a b : α) : Bool :=
  if le1 a b then (if le1 b a then le2 a b else true) else false

theorem lexComb_total {α : Type} (le1 le2 : α → α → Bool)
    (to1 : ∀ a b, (le1 a b || le1 b a) = true)
    (to2 : ∀ a b, (le2 a b || le2 b a) = true)
    (a b : α) : (lexComb le1 le2 a b || lexComb le1 le2 b a) = true := by
  unfold lexComb
  by_cases h1 : le1 a b = true
  · by_cases h2 : le1 b a = true
    · simpa [h1, h2] using to2 a b
    · simp [h1, h2]
  · have h2 : le1 b a = true := by
      have := to1 a b
      simp only [Bool.or_eq_true] at this
      rcases this with h | h
      · exact absurd h h1
      · exact h
    simp [h1, h2]

theorem lexComb_trans {α : Type} (le1 le2 : α → α → Bool)
    (tr1 : ∀ a b c, le1 a b = true → le1 b c = true → le1 a c = true)
    (tr2 : ∀ a b c, le2 a b = true → le2 b c = true → le2 a c = true)
    (a b d : α) (hab : lexComb le1 le2 a b = true) (hbd : lexComb le1 le2 b d = true) :
    lexComb le1 le2 a d = true := by
  unfold lexComb at hab hbd ⊢
  by_cases h1ab : le1 a b = true
  · by_cases h1bd : le1 b d = true
    · have h1ad : le1 a d = true := tr1 a b d h1ab h1bd
      simp only [h1ab, if_true] at hab
      simp only [h1bd, if_true] at hbd
      simp only [h1ad, if_true]
      by_cases h1da : le1 d a = true
      · have h1db : le1 d b = true := tr1 d a b h1da h1ab
        have h1ba : le1 b a = true := tr1 b d a h1bd h1da
        simp only [h1ba, if_true] at hab
        simp only [h1db, if_true] at hbd
        simp [tr2 a b d hab hbd]
      · simp [h1da]
    · simp [h1bd] at hbd
  · simp [h1ab] at hab

/-- Key stability lemma: sorting a list that is sorted by the indexed
secondary comparator, using the (index-blind) primary comparator, yields a
list sorted by the indexed combined comparator. -/
theorem pairwise_mergeSort_enumLE_lexComb {α : Type} (le1 le2 : α → α → Bool)
    (tr1 : ∀ a b c, le1 a b = true → le1 b c = true → le1 a c = true)
    (to1 : ∀ a b, (le1 a b || le1 b a) = true)
    (tr2 : ∀ a b c, le2 a b = true → le2 b c = true → le2 a c = true)
    (to2 : ∀ a b, (le2 a b || le2 b a) = true)
    (E : List (Nat × α)) (hNdE : E.Nodup) :
    ((E.mergeSort (List.enumLE le2)).mergeSort (fun x y => le1 x.2 y.2)).Pairwise
      (List.enumLE (lexComb le1 le2) · · = true) := by
  have rtr : ∀ a b c : Nat × α, le1 a.2 b.2 = true → le1 b.2 c.2 = true → le1 a.2 c.2 = true :=
    fun a b c hab hbc => tr1 _ _ _ hab hbc
  have rtot : ∀ a b : Nat × α, (le1 a.2 b.2 || le1 b.2 a.2) = true := fun a b => to1 _ _
  have hPA := @List.sorted_mergeSort (Nat × α) (fun x y => le1 x.2 y.2)
    rtr rtot (E.mergeSort (List.enumLE le2))
  have hPM := @List.sorted_mergeSort (Nat × α) (List.enumLE le2)
    (List.enumLE_trans tr2) (List.enumLE_total to2) E
  have hNdM : (E.mergeSort (List.enumLE le2)).Nodup :=
    hNdE.perm (List.mergeSort_perm _ _).symm
  have hNdA : ((E.mergeSort (List.enumLE le2)).mergeSort (fun x y => le1 x.2 y.2)).Nodup :=
    hNdM.perm (List.mergeSort_perm _ _).symm
  rw [List.pairwise_iff_getElem]
  intro i j hi hj hij
  have hrxy : le1 (((E.mergeSort (List.enumLE le2)).mergeSort
      (fun x y => le1 x.2 y.2))[i]).2
      (((E.mergeSort (List.enumLE le2)).mergeSort (fun x y => le1 x.2 y.2))[j]).2 = true :=
    List.pairwise_iff_getElem.mp hPA i j hi hj hij
  set A := (E.mergeSort (List.enumLE le2)).mergeSort (fun x y => le1 x.2 y.2) with hA
  by_cases hyx : le1 (A[j]).2 (A[i]).2 = true
  · have hne : A[i] ≠ A[j] := by
      intro he
      have := (List.Nodup.getElem_inj_iff hNdA).mp he
      omega
    have hxM : A[i] ∈ E.mergeSort (List.enumLE le2) := by
      have : A[i] ∈ A := List.getElem_mem hi
      exact (List.mergeSort_perm _ _).subset this
    have hyM : A[j] ∈ E.mergeSort (List.enumLE le2) := by
      have : A[j] ∈ A := List.getElem_mem hj
      exact (List.mergeSort_perm _ _).subset this
    rcases sublist_pair_of_mem hxM hyM hne with hs | hs
    · have hpp : List.Pairwise (List.enumLE le2 · · = true) [A[i], A[j]] :=
        List.Pairwise.sublist hs hPM
      have hq : List.enumLE le2 A[i] A[j] = true :=
        List.rel_of_pairwise_cons hpp (List.mem_cons_self _ _)
      simp only [List.enumLE, lexComb] at hq ⊢
      by_cases h2xy : le2 (A[i]).2 (A[j]).2 = true
      · by_cases h2yx : le2 (A[j]).2 (A[i]).2 = true
        · simp only [h2xy, h2yx, if_true] at hq
          simp [hrxy, hyx, h2xy, h2yx, hq]
        · simp [hrxy, hyx, h2xy, h2yx]
      · simp [h2xy] at hq
    · have hyxA : [A[j], A[i]].Sublist A :=
        List.sublist_mergeSort rtr rtot (List.pairwise_pair.mpr hyx) hs
      have hxyA : [A[i], A[j]].Sublist A := pair_sublist_getElem A i j hi hj hij
      exact absurd (pair_sublist_antisymm hNdA hxyA hyxA) hne
  · simp only [List.enumLE, lexComb]
    simp [hrxy, hyx]

/-- Fusion of two sequential stable merge sorts: stably sorting by a
secondary comparator and then stably sorting by a primary comparator equals
one stable sort by the lexicographically combined comparator. -/
theorem mergeSort_mergeSort {α : Type} (le1 le2 : α → α → Bool)
    (tr1 : ∀ a b c, le1 a b = true → le1 b c = true → le1 a c = true)
    (to1 : ∀ a b, (le1 a b || le1 b a) = true)
    (tr2 : ∀ a b c, le2 a b = true → le2 b c = true → le2 a c = true)
    (to2 : ∀ a b, (le2 a b || le2 b a) = true)
    (l : List α) :
    (l.mergeSort le2).mergeSort le1 = l.mergeSort (lexComb le1 le2) := by
  have lextr := lexComb_trans le1 le2 tr1 tr2
  have lexto := lexComb_total le1 le2 to1 to2
  have hstep2 : (l.mergeSort le2).mergeSort le1 =
      ((l.enum.mergeSort (List.enumLE le2)).mergeSort
        (fun x y : Nat × α => le1 x.2 y.2)).map Prod.snd := by
    have hMsnd : (l.enum.mergeSort (List.enumLE le2)).map Prod.snd = l.mergeSort le2 :=
      List.mergeSort_enum
    rw [← hMsnd]
    exact (@List.map_mergeSort (Nat × α) α (fun x y => le1 x.2 y.2) le1 Prod.snd
      (l.enum.mergeSort (List.enumLE le2)) (fun a _ b _ => rfl)).symm
  have hanti : ∀ a b : Nat × α,
      a ∈ (l.enum.mergeSort (List.enumLE le2)).mergeSort (fun x y : Nat × α => le1 x.2 y.2) →
      b ∈ l.enum.mergeSort (List.enumLE (lexComb le1 le2)) →
      List.enumLE (lexComb le1 le2) a b = true →
      List.enumLE (lexComb le1 le2) b a = true → a = b := by
    intro a b ha hb h1 h2
    have ha' : a ∈ l.enum :=
      (List.mergeSort_perm _ _).subset ((List.mergeSort_perm _ _).subset ha)
    have hb' : b ∈ l.enum := (List.mergeSort_perm _ _).subset hb
    apply enum_fst_inj ha' hb'
    simp only [List.enumLE] at h1 h2
    by_cases hab : lexComb le1 le2 a.2 b.2 = true
    · by_cases hba : lexComb le1 le2 b.2 a.2 = true
      · simp [hab, hba] at h1 h2
        omega
      · simp [hab, hba] at h2
    · simp [hab] at h1
  have heq : (l.enum.mergeSort (List.enumLE le2)).mergeSort (fun x y : Nat × α => le1 x.2 y.2) =
      l.enum.mergeSort (List.enumLE (lexComb le1 le2)) := by
    apply List.Perm.eq_of_sorted hanti
    · exact pairwise_mergeSort_enumLE_lexComb le1 le2 tr1 to1 tr2 to2 l.enum (nodup_enum l)
    · exact List.sorted_mergeSort (List.enumLE_trans lextr) (List.enumLE_total lexto) _
    · exact ((List.mergeSort_perm _ _).trans (List.mergeSort_perm _ _)).trans
        (List.mergeSort_perm _ _).symm
  rw [hstep2, heq]
  exact List.mergeSort_enum

/-- Fusion of two sequential stable sorts, stated for the model `pySort` of
Python's `list.sort`: the two sequential in-place sorts of the harness are
one stable sort by the combined comparator. -/
theorem pySort_pySort {α : Type} (le1 le2 : α → α → Bool)
    (tr1 : ∀ a b c, le1 a b = true → le1 b c = true → le1 a c = true)
    (to1 : ∀ a b, (le1 a b || le1 b a) = true)
    (tr2 : ∀ a b c, le2 a b = true → le2 b c = true → le2 a c = true)
    (to2 : ∀ a b, (le2 a b || le2 b a) = true)
    (l : List α) :
    pySort le1 (pySort le2 l) = pySort (lexComb le1 le2) l := by
  rw [pySort_eq_mergeSort tr2 to2 l, pySort_eq_mergeSort tr1 to1 (l.mergeSort le2),
    pySort_eq_mergeSort (lexComb_trans le1 le2 tr1 tr2) (lexComb_total le1 le2 to1 to2) l]
  exact mergeSort_mergeSort le1 le2 tr1 to1 tr2 to2 l

/-! ### Section 4: Python strings, `splitlines(True)` and `streamline_errors`

A Python string is modelled as a list of characters.  `splitLinesKeep`
models `unicode.splitlines(True)` of Python 2: it splits at the line
boundaries `\n`, `\r`, `\r\n`, `\x0b`, `\x0c`, `\x1c`, `\x1d`, `\x1e`,
`\x85`, ` `, ` `, keeping each boundary attached to its line. -/

/-- Python strings are modelled as their lists of characters (code points). -/
abbrev PyStr := List Char

/-- Characters treated as line boundaries by Python 2 `unicode.splitlines`. -/
def isLineBreak (c : Char) : Bool :=
  c = '\n' || c = '\r' || c = '\x0b' || c = '\x0c' ||
  c = '\x1c' || c = '\x1d' || c = '\x1e' || c = '\x85' ||
  c = ' ' || c = ' '

/-- Prepend a character to the first line of a line list (helper of
`splitLinesKeep`). -/
def consLine (c : Char) : List PyStr → List PyStr
  | [] => [[c]]
  | l :: ls => (c :: l) :: ls

/-- Model of Python 2 `unicode.splitlines(True)`: split into lines, keeping
the line boundaries; `\r\n` counts as a single boundary. -/
def splitLinesKeep : PyStr → List PyStr
  | [] => []
  | c :: rest =>
    if c = '\r' then
      match rest with
      | [] => [['\r']]
      | c2 :: rest2 =>
        if c2 = '\n' then ['\r', '\n'] :: splitLinesKeep rest2
        else ['\r'] :: splitLinesKeep (c2 :: rest2)
    else if isLineBreak c then
      [c] :: splitLinesKeep rest
    else consLine c (splitLinesKeep rest)

/-- Model of the body of the loop of `streamline_errors` for one error
string: an error with at most one line is kept, otherwise it is replaced by
the concatenation of its first and its last line (`splitlines(True)`
semantics, so the first line keeps its boundary). -/
def streamlineOne (e : PyStr) : PyStr :=
  if (splitLinesKeep e).length ≤ 1 then e
  else (splitLinesKeep e).headI ++ (splitLinesKeep e).getLastI

/-- Model of `streamline_errors`: the in-place update of every entry of the
errors list (iteration over a copy plus index assignment is a map, since the
length never changes). -/
def streamline_errors (errors : List PyStr) : List PyStr :=
  errors.map streamlineOne

/-- A string without line boundary characters. -/
def noBreaks (s : PyStr) : Prop := ∀ c ∈ s, isLineBreak c = false

/-- A line boundary as produced by `splitLinesKeep`. -/
def isTerm (t : PyStr) : Prop :=
  t = ['\r', '\n'] ∨ ∃ c, t = [c] ∧ isLineBreak c = true

/-- A complete line: boundary-free body followed by one line boundary. -/
def isFullLine (l : PyStr) : Prop :=
  ∃ b t, l = b ++ t ∧ noBreaks b ∧ isTerm t

theorem fullLine_ne_nil {l : PyStr} (h : isFullLine l) : l ≠ [] := by
  obtain ⟨b, t, rfl, -, ht⟩ := h
  rcases ht with rfl | ⟨c, rfl, -⟩ <;> simp

theorem noBreaks_ne_cr {s : PyStr} (h : noBreaks s) {c : Char} (hc : c ∈ s) :
    ¬ c = '\r' := by
  intro hEq
  have hb := h _ hc
  rw [hEq] at hb
  exact absurd hb (by decide)

theorem splitLinesKeep_of_noBreaks : ∀ (s : PyStr), noBreaks s → s ≠ [] →
    splitLinesKeep s = [s] := by
  intro s
  induction s with
  | nil => intro _ h; exact absurd rfl h
  | cons c rest ih =>
    intro hnb _
    have hc : isLineBreak c = false := hnb c (List.mem_cons_self _ _)
    have hcr : ¬ c = '\r' := noBreaks_ne_cr hnb (List.mem_cons_self _ _)
    rw [splitLinesKeep.eq_def]
    simp only [hcr, hc, Bool.false_eq_true, if_false]
    cases hrest : rest with
    | nil => simp [splitLinesKeep, consLine]
    | cons c2 rest2 =>
      rw [← hrest, ih (fun x hx => hnb x (List.mem_cons_of_mem _ hx)) (by simp [hrest])]
      simp [consLine]

theorem splitLinesKeep_append : ∀ (b t r : PyStr), noBreaks b → isTerm t →
    (t = ['\r'] → ∀ u, r ≠ '\n' :: u) →
    splitLinesKeep (b ++ (t ++ r)) = (b ++ t) :: splitLinesKeep r := by
  intro b
  induction b with
  | nil =>
    intro t r _ ht hcr
    rcases ht with rfl | ⟨c, rfl, hc⟩
    · simp [splitLinesKeep]
    · by_cases hceq : c = '\r'
      · subst hceq
        cases hr : r with
        | nil => simp [splitLinesKeep]
        | cons c2 u =>
          have hne : ¬ c2 = '\n' := by
            intro hEq
            subst hEq
            subst hr
            exact absurd rfl (hcr rfl u)
          simp only [List.nil_append, List.singleton_append]
          rw [splitLinesKeep.eq_def]
          simp [hne]
      · simp only [List.nil_append, List.singleton_append]
        rw [splitLinesKeep.eq_def]
        simp [hceq, hc]
  | cons x b' ih =>
    intro t r hnb ht hcr
    have hx : isLineBreak x = false := hnb x (List.mem_cons_self _ _)
    have hxr : ¬ x = '\r' := noBreaks_ne_cr hnb (List.mem_cons_self _ _)
    have hres := ih t r (fun y hy => hnb y (List.mem_cons_of_mem _ hy)) ht hcr
    simp only [List.cons_append]
    rw [splitLinesKeep.eq_def]
    simp only [hxr, hx, Bool.false_eq_true, if_false]
    rw [hres]
    simp [consLine]

theorem splitLinesKeep_of_fullLine (l : PyStr) (h : isFullLine l) :
    splitLinesKeep l = [l] := by
  obtain ⟨b, t, rfl, hb, ht⟩ := h
  have := splitLinesKeep_append b t [] hb ht (fun _ u => by simp)
  simpa [splitLinesKeep] using this

theorem shape_mem_splitLinesKeep : ∀ (s : PyStr) (l : PyStr),
    l ∈ splitLinesKeep s → isFullLine l ∨ (noBreaks l ∧ l ≠ []) := by
  intro s
  induction s using splitLinesKeep.induct with
  | case1 => intro l hl; simp [splitLinesKeep] at hl
  | case2 =>
    intro l hl
    have h2 : splitLinesKeep ['\r'] = [['\r']] := rfl
    rw [h2] at hl
    simp only [List.mem_singleton] at hl
    subst hl
    exact Or.inl ⟨[], ['\r'], rfl, by intro c h; simp at h, Or.inr ⟨'\r', rfl, by decide⟩⟩
  | case3 rest2 ih =>
    intro l hl
    simp only [splitLinesKeep, if_pos rfl, if_pos rfl] at hl
    rcases List.mem_cons.mp hl with rfl | hl
    · exact Or.inl ⟨[], ['\r', '\n'], rfl, by intro c h; simp at h, Or.inl rfl⟩
    · exact ih l hl
  | case4 c2 rest2 hne ih =>
    intro l hl
    simp only [splitLinesKeep, if_pos rfl, if_neg hne] at hl
    rcases List.mem_cons.mp hl with rfl | hl
    · exact Or.inl ⟨[], ['\r'], rfl, by intro c h; simp at h, Or.inr ⟨'\r', rfl, by decide⟩⟩
    · exact ih l hl
  | case5 c2 rest2 hne hbr ih =>
    intro l hl
    rw [splitLinesKeep.eq_def] at hl
    simp only [hne, hbr, if_true, if_false, Bool.false_eq_true] at hl
    rcases List.mem_cons.mp hl with rfl | hl
    · exact Or.inl ⟨[], [c2], rfl, by intro c h; simp at h, Or.inr ⟨c2, rfl, hbr⟩⟩
    · exact ih l hl
  | case6 c2 rest2 hne hbr ih =>
    intro l hl
    rw [splitLinesKeep.eq_def] at hl
    simp only [hne, hbr, if_true, if_false, Bool.false_eq_true] at hl
    cases hrec : splitLinesKeep rest2 with
    | nil =>
      rw [hrec] at hl
      simp only [consLine, List.mem_singleton] at hl
      subst hl
      refine Or.inr ⟨?_, by simp⟩
      intro c h
      simp only [List.mem_singleton] at h
      subst h
      simpa using hbr
    | cons m ms =>
      rw [hrec] at hl
      simp only [consLine] at hl
      rcases List.mem_cons.mp hl with rfl | hl
      · rcases ih m (by rw [hrec]; exact List.mem_cons_self _ _) with hfull | ⟨hnb, hne'⟩
        · obtain ⟨b, t, rfl, hb, ht⟩ := hfull
          refine Or.inl ⟨c2 :: b, t, by simp, ?_, ht⟩
          intro c h
          rcases List.mem_cons.mp h with rfl | h
          · simpa using hbr
          · exact hb c h
        · refine Or.inr ⟨?_, by simp⟩
          intro c h
          rcases List.mem_cons.mp h with rfl | h
          · simpa using hbr
          · exact hnb c h
      · exact ih l (by rw [hrec]; exact List.mem_cons_of_mem _ hl)

theorem shape_first_splitLinesKeep : ∀ (s : PyStr), ∀ (l0 l1 : PyStr) (ls : List PyStr),
    splitLinesKeep s = l0 :: l1 :: ls → isFullLine l0 := by
  intro s
  induction s using splitLinesKeep.induct with
  | case1 =>
    intro l0 l1 ls h
    simp [splitLinesKeep] at h
  | case2 =>
    intro l0 l1 ls h
    have h2 : splitLinesKeep ['\r'] = [['\r']] := rfl
    rw [h2] at h
    simp at h
  | case3 rest2 ih =>
    intro l0 l1 ls h
    have h2 : splitLinesKeep ('\r' :: '\n' :: rest2) = ['\r', '\n'] :: splitLinesKeep rest2 := rfl
    rw [h2] at h
    obtain ⟨rfl, -⟩ := List.cons.inj h
    exact ⟨[], ['\r', '\n'], rfl, by intro c hc; simp at hc, Or.inl rfl⟩
  | case4 c2 rest2 hne ih =>
    intro l0 l1 ls h
    rw [splitLinesKeep.eq_def] at h
    simp only [hne, if_true, if_false, Bool.false_eq_true] at h
    obtain ⟨rfl, -⟩ := List.cons.inj h
    exact ⟨[], ['\r'], rfl, by intro c hc; simp at hc, Or.inr ⟨'\r', rfl, by decide⟩⟩
  | case5 c2 rest2 hne hbr ih =>
    intro l0 l1 ls h
    rw [splitLinesKeep.eq_def] at h
    simp only [hne, hbr, if_true, if_false, Bool.false_eq_true] at h
    obtain ⟨rfl, -⟩ := List.cons.inj h
    exact ⟨[], [c2], rfl, by intro c hc; simp at hc, Or.inr ⟨c2, rfl, hbr⟩⟩
  | case6 c2 rest2 hne hbr ih =>
    intro l0 l1 ls h
    rw [splitLinesKeep.eq_def] at h
    simp only [hne, hbr, if_true, if_false, Bool.false_eq_true] at h
    cases hrec : splitLinesKeep rest2 with
    | nil =>
      rw [hrec] at h
      simp [consLine] at h
    | cons m ms =>
      rw [hrec] at h
      simp only [consLine] at h
      obtain ⟨hl0, hms⟩ := List.cons.inj h
      subst hms
      rcases ih m l1 ls hrec with ⟨b, t, hbt, hb, ht⟩
      refine ⟨c2 :: b, t, ?_, ?_, ht⟩
      · rw [← hl0, hbt]; simp
      · intro c hc
        rcases List.mem_cons.mp hc with rfl | hc
        · simpa using hbr
        · exact hb c hc

theorem shape_eq_nl (ln : PyStr) (hsh : isFullLine ln ∨ (noBreaks ln ∧ ln ≠ []))
    (u : PyStr) (heq : ln = '\n' :: u) : ln = ['\n'] := by
  rcases hsh with ⟨b, t, hbt, hb, ht⟩ | ⟨hnb, -⟩
  · cases b with
    | nil =>
      simp only [List.nil_append] at hbt
      rcases ht with rfl | ⟨c, rfl, -⟩
      · rw [heq] at hbt
        exact absurd (List.cons.inj hbt).1 (by decide)
      · rw [heq] at hbt
        obtain ⟨rfl, rfl⟩ := List.cons.inj hbt
        exact heq
    | cons x b' =>
      rw [heq] at hbt
      obtain ⟨rfl, -⟩ := List.cons.inj hbt
      have := hb _ (List.mem_cons_self _ _)
      exact absurd this (by decide)
  · have := hnb '\n' (by rw [heq]; exact List.mem_cons_self _ _)
    exact absurd this (by decide)

theorem streamlineOne_short {e : PyStr} (h : (splitLinesKeep e).length ≤ 1) :
    streamlineOne e = e := by
  simp [streamlineOne, h]

theorem streamlineOne_long {e : PyStr} (h : 2 ≤ (splitLinesKeep e).length) :
    streamlineOne e = (splitLinesKeep e).headI ++ (splitLinesKeep e).getLastI := by
  simp only [streamlineOne]
  rw [if_neg (by omega)]

theorem streamlineOne_idem (e : PyStr) :
    streamlineOne (streamlineOne e) = streamlineOne e := by
  by_cases hlen : (splitLinesKeep e).length ≤ 1
  · rw [streamlineOne_short hlen]
    exact streamlineOne_short hlen
  · have h2 : 2 ≤ (splitLinesKeep e).length := by omega
    obtain ⟨l0, l1, ls, hsp⟩ : ∃ l0 l1 ls, splitLinesKeep e = l0 :: l1 :: ls := by
      cases hc1 : splitLinesKeep e with
      | nil => rw [hc1] at h2; simp at h2
      | cons l0 rest =>
        cases rest with
        | nil => rw [hc1] at h2; simp at h2
        | cons l1 ls => exact ⟨l0, l1, ls, rfl⟩
    have hfull : isFullLine l0 := shape_first_splitLinesKeep e l0 l1 ls hsp
    have hlnsome : (splitLinesKeep e).getLast? = some ((splitLinesKeep e).getLastI) := by
      cases hgl : (splitLinesKeep e).getLast? with
      | none =>
        rw [List.getLast?_eq_none_iff] at hgl
        rw [hgl] at hsp
        exact absurd hsp (by simp)
      | some x =>
        rw [List.getLastI_eq_getLast?, hgl]
    have hmem : (splitLinesKeep e).getLastI ∈ splitLinesKeep e :=
      List.mem_of_getLast?_eq_some hlnsome
    have hshape := shape_mem_splitLinesKeep e _ hmem
    have hstream : streamlineOne e = l0 ++ (splitLinesKeep e).getLastI := by
      rw [streamlineOne_long h2]
      congr 1
      rw [hsp]
      simp
    have hlnne : (splitLinesKeep e).getLastI ≠ [] := by
      rcases hshape with hf | ⟨-, hne⟩
      · exact fullLine_ne_nil hf
      · exact hne
    obtain ⟨b, t, hl0, hb, ht⟩ := hfull
    by_cases hmerge : t = ['\r'] ∧ ∃ u, (splitLinesKeep e).getLastI = '\n' :: u
    · obtain ⟨htr, u, hu⟩ := hmerge
      have hln1 : (splitLinesKeep e).getLastI = ['\n'] := shape_eq_nl _ hshape u hu
      have hconv : l0 ++ (splitLinesKeep e).getLastI = b ++ ['\r', '\n'] := by
        rw [hl0, htr, hln1]
        simp
      have hsingle : splitLinesKeep (l0 ++ (splitLinesKeep e).getLastI) =
          [l0 ++ (splitLinesKeep e).getLastI] := by
        rw [hconv]
        exact splitLinesKeep_of_fullLine _ ⟨b, ['\r', '\n'], rfl, hb, Or.inl rfl⟩
      rw [hstream]
      exact streamlineOne_short (by rw [hsingle]; simp)
    · have hcr : t = ['\r'] → ∀ u, (splitLinesKeep e).getLastI ≠ '\n' :: u := by
        intro htr u hu
        exact hmerge ⟨htr, u, hu⟩
      have hlnsplit : splitLinesKeep ((splitLinesKeep e).getLastI) =
          [(splitLinesKeep e).getLastI] := by
        rcases hshape with hf | ⟨hnb, hne⟩
        · exact splitLinesKeep_of_fullLine _ hf
        · exact splitLinesKeep_of_noBreaks _ hnb hne
      have happ : splitLinesKeep (l0 ++ (splitLinesKeep e).getLastI) =
          [l0, (splitLinesKeep e).getLastI] := by
        rw [hl0, List.append_assoc, splitLinesKeep_append b t _ hb ht hcr, hlnsplit, ← hl0]
      rw [hstream, streamlineOne_long (by rw [happ]; simp), happ]
      rfl

/-- Model of the loop body result of `streamline_errors` on an error with at
least two lines: the error becomes first line plus last line. -/
theorem streamlineOne_eq_first_last {e : PyStr} (h : 2 ≤ (splitLinesKeep e).length) :
    streamlineOne e = (splitLinesKeep e).headI ++ (splitLinesKeep e).getLastI :=
  streamlineOne_long h

theorem streamline_errors_length (errors : List PyStr) :
    (streamline_errors errors).length = errors.length := by
  simp [streamline_errors]

theorem streamline_errors_idem (errors : List PyStr) :
    streamline_errors (streamline_errors errors) = streamline_errors errors := by
  simp only [streamline_errors, List.map_map]
  apply List.map_congr_left
  intro e _
  exact streamlineOne_idem e

/-! ### Section 5: JSON values decoded with `object_pairs_hook=OrderedDict`

JSON values are modelled by `JVal`; an object is an ordered association
list, as produced by decoding with `OrderedDict`. -/

/-- A decoded JSON value: `null`, booleans, integers, strings, arrays, and
ordered objects. -/
inductive JVal where
  | null : JVal
  | bool : Bool → JVal
  | num : Int → JVal
  | str : PyStr → JVal
  | arr : List JVal → JVal
  | obj : List (String × JVal) → JVal

mutual

def JVal.decEq : (a b : JVal) → Decidable (a = b)
  | .null, .null => isTrue rfl
  | .null, .bool _ => isFalse (fun h => JVal.noConfusion h)
  | .null, .num _ => isFalse (fun h => JVal.noConfusion h)
  | .null, .str _ => isFalse (fun h => JVal.noConfusion h)
  | .null, .arr _ => isFalse (fun h => JVal.noConfusion h)
  | .null, .obj _ => isFalse (fun h => JVal.noConfusion h)
  | .bool _, .null => isFalse (fun h => JVal.noConfusion h)
  | .bool a, .bool b =>
    match Bool.decEq a b with
    | isTrue h => isTrue (by rw [h])
    | isFalse h => isFalse (fun hh => h (by injection hh))
  | .bool _, .num _ => isFalse (fun h => JVal.noConfusion h)
  | .bool _, .str _ => isFalse (fun h => JVal.noConfusion h)
  | .bool _, .arr _ => isFalse (fun h => JVal.noConfusion h)
  | .bool _, .obj _ => isFalse (fun h => JVal.noConfusion h)
  | .num _, .null => isFalse (fun h => JVal.noConfusion h)
  | .num _, .bool _ => isFalse (fun h => JVal.noConfusion h)
  | .num a, .num b =>
    match Int.decEq a b with
    | isTrue h => isTrue (by rw [h])
    | isFalse h => isFalse (fun hh => h (by injection hh))
  | .num _, .str _ => isFalse (fun h => JVal.noConfusion h)
  | .num _, .arr _ => isFalse (fun h => JVal.noConfusion h)
  | .num _, .obj _ => isFalse (fun h => JVal.noConfusion h)
  | .str _, .null => isFalse (fun h => JVal.noConfusion h)
  | .str _, .bool _ => isFalse (fun h => JVal.noConfusion h)
  | .str _, .num _ => isFalse (fun h => JVal.noConfusion h)
  | .str a, .str b =>
    match List.hasDecEq a b with
    | isTrue h => isTrue (by rw [h])
    | isFalse h => isFalse (fun hh => h (by injection hh))
  | .str _, .arr _ => isFalse (fun h => JVal.noConfusion h)
  | .str _, .obj _ => isFalse (fun h => JVal.noConfusion h)
  | .arr _, .null => isFalse (fun h => JVal.noConfusion h)
  | .arr _, .bool _ => isFalse (fun h => JVal.noConfusion h)
  | .arr _, .num _ => isFalse (fun h => JVal.noConfusion h)
  | .arr _, .str _ => isFalse (fun h => JVal.noConfusion h)
  | .arr a, .arr b =>
    match JVal.decEqArr a b with
    | isTrue h => isTrue (by rw [h])
    | isFalse h => isFalse (fun hh => h (by injection hh))
  | .arr _, .obj _ => isFalse (fun h => JVal.noConfusion h)
  | .obj _, .null => isFalse (fun h => JVal.noConfusion h)
  | .obj _, .bool _ => isFalse (fun h => JVal.noConfusion h)
  | .obj _, .num _ => isFalse (fun h => JVal.noConfusion h)
  | .obj _, .str _ => isFalse (fun h => JVal.noConfusion h)
  | .obj _, .arr _ => isFalse (fun h => JVal.noConfusion h)
  | .obj a, .obj b =>
    match JVal.decEqObj a b with
    | isTrue h => isTrue (by rw [h])
    | isFalse h => isFalse (fun hh => h (by injection hh))

def JVal.decEqArr : (xs ys : List JVal) → Decidable (xs = ys)
  | [], [] => isTrue rfl
  | [], _ :: _ => isFalse (fun h => List.noConfusion h)
  | _ :: _, [] => isFalse (fun h => List.noConfusion h)
  | x :: xs, y :: ys =>
    match JVal.decEq x y, JVal.decEqArr xs ys with
    | isTrue h1, isTrue h2 => isTrue (by rw [h1, h2])
    | isFalse h1, _ => isFalse (fun hh => by
        injection hh with hx ht
        exact h1 hx)
    | _, isFalse h2 => isFalse (fun hh => by
        injection hh with hx ht
        exact h2 ht)

def JVal.decEqObj : (xs ys : List (String × JVal)) → Decidable (xs = ys)
  | [], [] => isTrue rfl
  | [], _ :: _ => isFalse (fun h => List.noConfusion h)
  | _ :: _, [] => isFalse (fun h => List.noConfusion h)
  | (k, v) :: xs, (k2, v2) :: ys =>
    match String.decEq k k2, JVal.decEq v v2, JVal.decEqObj xs ys with
    | isTrue hk, isTrue h1, isTrue h2 => isTrue (by rw [hk, h1, h2])
    | isFalse hk, _, _ => isFalse (fun hh => by
        injection hh with hp ht
        injection hp with hk2 hv2
        exact hk hk2)
    | _, isFalse h1, _ => isFalse (fun hh => by
        injection hh with hp ht
        injection hp with hk2 hv2
        exact h1 hv2)
    | _, _, isFalse h2 => isFalse (fun hh => by
        injection hh with hp ht
        exact h2 ht)

end

instance : DecidableEq JVal := JVal.decEq

/-! ### Section 6: the model of the deltacode test-harness functions -/

/-- Python exceptions that the modelled code can raise.  `typeError` stands
for both `TypeError` and `AttributeError` (the model does not distinguish
them). -/
inductive PyErr where
  | keyError : String → PyErr
  | typeError : PyErr
  | assertionError : PyErr
deriving DecidableEq

/-- One entry of the `deltas` list of a deltacode scan result: its integer
`score`, its `factors` (a list of strings in deltacode output), the path the
delta reports, and its remaining entries in order. -/
structure Delta where
  score : Int
  factors : List String
  path : String
  rest : List (String × JVal)
deriving DecidableEq

/-- A decoded scan-result document: the root ordered mapping (all entries
except `deltas`, in their original order) and the list of deltas. -/
structure ScanResults where
  fields : List (String × JVal)
  deltas : List Delta
deriving DecidableEq

/-- Comparator of the first sort of `load_json_result_from_string`:
`key=lambda x: x['factors']`, `reverse=False`. -/
def factorsLe (a b : Delta) : Bool := (factorsCmp a.factors b.factors).isLE

/-- Comparator of the second sort of `load_json_result_from_string`:
`key=lambda x: x['score']`, `reverse=True` (descending, stable). -/
def scoreGe (a b : Delta) : Bool := decide (b.score ≤ a.score)

/-- Comparator by reported path ascending (used by the specification's
Ranker as the final tie-break). -/
def pathLe (a b : Delta) : Bool := (strCmp a.path b.path).isLE

theorem factorsLe_trans : ∀ a b c : Delta,
    factorsLe a b = true → factorsLe b c = true → factorsLe a c = true :=
  fun a b c h1 h2 => cmpLe_trans factorsCmp_law a.factors b.factors c.factors h1 h2

theorem factorsLe_total : ∀ a b : Delta, (factorsLe a b || factorsLe b a) = true :=
  fun a b => cmpLe_total factorsCmp_law a.factors b.factors

theorem scoreGe_trans : ∀ a b c : Delta,
    scoreGe a b = true → scoreGe b c = true → scoreGe a c = true := by
  intro a b c h1 h2
  simp only [scoreGe, decide_eq_true_eq] at h1 h2 ⊢
  exact le_trans h2 h1

theorem scoreGe_total : ∀ a b : Delta, (scoreGe a b || scoreGe b a) = true := by
  intro a b
  simp only [scoreGe, Bool.or_eq_true, decide_eq_true_eq]
  exact (le_total b.score a.score).imp id id

/-- Remove the entry with key `k` from an ordered mapping
(`mapping.pop(k, None)`; decoded JSON objects have unique keys, and
`eraseP` removes the first matching entry). -/
def popKey (k : String) (fields : List (String × JVal)) : List (String × JVal) :=
  fields.eraseP (fun kv => decide (kv.1 = k))

/-- Look up the value at key `k` (`mapping[k]`, without the `KeyError`). -/
def lookupKey (k : String) (fields : List (String × JVal)) : Option JVal :=
  (fields.find? (fun kv => decide (kv.1 = k))).map Prod.snd

/-- Replace the value at key `k` in place, keeping the entry's position
(this models mutating in place the list object bound at `k`). -/
def setKey (k : String) (v : JVal) (fields : List (String × JVal)) : List (String × JVal) :=
  fields.map (fun kv => if kv.1 = k then (k, v) else kv)

/-- Decode a JSON array's elements as Python strings; `none` when some
element is not a string. -/
def asStrList : List JVal → Option (List PyStr)
  | [] => some []
  | JVal.str s :: rest => (asStrList rest).map (fun l => s :: l)
  | _ => none

/-- Boolean check: the value is an array of strings (the well-formed shape
of a `deltacode_errors` value). -/
def isStrArr : JVal → Bool
  | JVal.arr xs => xs.all (fun v => match v with | JVal.str _ => true | _ => false)
  | _ => false

/-- Streamline every string of an array-of-strings value, leaving any other
value unchanged (total companion of `streamlineErrorsVal`). -/
def streamlineStrArr : JVal → JVal
  | JVal.arr xs => JVal.arr (xs.map (fun v => match v with
      | JVal.str s => JVal.str (streamlineOne s)
      | v => v))
  | v => v

/-- The effect of `streamline_errors(headers['deltacode_errors'])` on the
stored value.  On a list of strings it maps `streamlineOne` over the list.
On a Python string it is a no-op (iterating a string yields its one-character
strings, which never have two lines, so the loop never assigns).  On a list
with a non-string element Python raises `AttributeError` at `splitlines`;
on a non-sliceable value it raises `TypeError` at `errors[:]`; both are
modelled as `typeError`. -/
def streamlineErrorsVal : JVal → Except PyErr JVal
  | JVal.arr xs =>
    match asStrList xs with
    | some ss => Except.ok (JVal.arr ((streamline_errors ss).map JVal.str))
    | none => Except.error PyErr.typeError
  | JVal.str s => Except.ok (JVal.str s)
  | _ => Except.error PyErr.typeError

/-- Model of `streamline_headers(headers)`: pop `deltacode_version` and
`deltacode_options`, then streamline `headers['deltacode_errors']` in place
(a missing `deltacode_errors` key raises `KeyError`). -/
def streamline_headers (fields : List (String × JVal)) :
    Except PyErr (List (String × JVal)) :=
  let f1 := popKey "deltacode_version" fields
  let f2 := popKey "deltacode_options" f1
  match lookupKey "deltacode_errors" f2 with
  | none => Except.error (PyErr.keyError "deltacode_errors")
  | some v =>
    match streamlineErrorsVal v with
    | Except.error e => Except.error e
    | Except.ok v2 => Except.ok (setKey "deltacode_errors" v2 f2)

/-- Model of `load_json_result_from_string`: parse (the parsed document is
the input), streamline the headers of the root mapping, then sort the
`deltas` list in place, first by `factors` ascending and then, stably, by
`score` descending.  The `remove_file_date` parameter is accepted and, as in
the source, never used. -/
def load_json_result_from_string (sr : ScanResults) (remove_file_date : Bool) :
    Except PyErr ScanResults :=
  match streamline_headers sr.fields with
  | Except.error e => Except.error e
  | Except.ok fields2 =>
    Except.ok { fields := fields2,
                deltas := pySort scoreGe (pySort factorsLe sr.deltas) }

/-- Model of `load_json_result`: read the file at `location` (modelled by
its already-parsed content) and hand it to `load_json_result_from_string`. -/
def load_json_result (content : ScanResults) (remove_file_date : Bool) :
    Except PyErr ScanResults :=
  load_json_result_from_string content remove_file_date

/-- Key-ascending comparator on object entries, for the canonical
(sorted-keys) serialization. -/
def keyLe (a b : String × JVal) : Bool := (strCmp a.1 b.1).isLE

mutual

def canonJVal : JVal → JVal
  | JVal.null => JVal.null
  | JVal.bool b => JVal.bool b
  | JVal.num n => JVal.num n
  | JVal.str s => JVal.str s
  | JVal.arr xs => JVal.arr (canonArr xs)
  | JVal.obj kvs => JVal.obj (pySort keyLe (canonObj kvs))

def canonArr : List JVal → List JVal
  | [] => []
  | v :: vs => canonJVal v :: canonArr vs

def canonObj : List (String × JVal) → List (String × JVal)
  | [] => []
  | (k, v) :: kvs => (k, canonJVal v) :: canonObj kvs

end

/-- Canonical form of a delta entry under sorted-keys serialization: the
typed entries are unchanged, the remaining entries are key-sorted
recursively. -/
def canonDelta (d : Delta) : Delta :=
  { d with rest := pySort keyLe (canonObj d.rest) }

/-- Canonical form of a document under `json.dumps(..., sort_keys=True)`:
object keys are sorted at every level; array order (hence the order of the
`deltas` list) is kept.  Two decoded documents without duplicate keys have
equal sorted-keys serializations exactly when their canonical forms are
equal. -/
def canonScan (sr : ScanResults) : ScanResults :=
  { fields := pySort keyLe (canonObj sr.fields), deltas := sr.deltas.map canonDelta }

/-- Well-formedness used by the totality claims: the root mapping carries a
`deltacode_errors` entry whose value is an array of strings. -/
def wfScanB (sr : ScanResults) : Bool :=
  match lookupKey "deltacode_errors" sr.fields with
  | some v => isStrArr v
  | none => false

/-- The two files `check_json_scan` works with, modelled by their parsed
contents. -/
structure Files where
  expected_file : ScanResults
  result_file : ScanResults
deriving DecidableEq

/-- Drop the `headers` entry of the root mapping
(`scan.pop('headers', None)`). -/
def popHeaders (sr : ScanResults) : ScanResults :=
  { sr with fields := popKey "headers" sr.fields }

/-- Model of `check_json_scan`: load the result file, with `regen` rewrite
the expected file with the loaded (normalized) results, load the expected
file, optionally drop the `headers` entries, re-serialize both with sorted
keys (modelled by the canonical form `canonScan`) and assert equality.
Returns the final file state together with the outcome. -/
def check_json_scan (fs : Files) (regen remove_file_date ignore_headers : Bool) :
    Files × Except PyErr Unit :=
  match load_json_result fs.result_file remove_file_date with
  | Except.error e => (fs, Except.error e)
  | Except.ok results =>
    let fs2 := if regen then { fs with expected_file := results } else fs
    match load_json_result fs2.expected_file remove_file_date with
    | Except.error e => (fs2, Except.error e)
    | Except.ok expected =>
      let results2 := if ignore_headers then popHeaders results else results
      let expected2 := if ignore_headers then popHeaders expected else expected
      if canonScan expected2 = canonScan results2 then (fs2, Except.ok ())
      else (fs2, Except.error PyErr.assertionError)

/-- The normalized canonical form a file's content contributes to the
comparison of `check_json_scan`: load, normalize, optionally drop `headers`,
serialize with sorted keys; `none` when loading raises. -/
def canonOf (sr : ScanResults) (remove_file_date ignore_headers : Bool) :
    Option ScanResults :=
  match load_json_result sr remove_file_date with
  | Except.error _ => none
  | Except.ok r => some (canonScan (if ignore_headers then popHeaders r else r))

/-! ### Section 7: supporting lemmas about the harness model -/

theorem asStrList_of_all : ∀ (xs : List JVal),
    xs.all (fun v => match v with | JVal.str _ => true | _ => false) = true →
    ∃ ss, asStrList xs = some ss ∧ xs = ss.map JVal.str := by
  intro xs
  induction xs with
  | nil => intro _; exact ⟨[], rfl, rfl⟩
  | cons v vs ih =>
    intro h
    simp only [List.all_cons, Bool.and_eq_true] at h
    obtain ⟨hv, hvs⟩ := h
    cases v with
    | str s =>
      obtain ⟨ss, h1, h2⟩ := ih hvs
      exact ⟨s :: ss, by simp [asStrList, h1], by simp [h2]⟩
    | null => simp at hv
    | bool b => simp at hv
    | num n => simp at hv
    | arr a => simp at hv
    | obj o => simp at hv

theorem streamlineErrorsVal_of_isStrArr {v : JVal} (h : isStrArr v = true) :
    streamlineErrorsVal v = Except.ok (streamlineStrArr v) := by
  cases v with
  | arr xs =>
    simp only [isStrArr] at h
    obtain ⟨ss, h1, h2⟩ := asStrList_of_all xs h
    simp only [streamlineErrorsVal, h1, streamlineStrArr, streamline_errors]
    subst h2
    simp [List.map_map]
  | null => simp [isStrArr] at h
  | bool b => simp [isStrArr] at h
  | num n => simp [isStrArr] at h
  | str s => simp [isStrArr] at h
  | obj o => simp [isStrArr] at h

theorem lookup_popKey {k k2 : String} (hne : ¬ k2 = k) :
    ∀ (fields : List (String × JVal)),
    lookupKey k2 (popKey k fields) = lookupKey k2 fields := by
  intro fields
  induction fields with
  | nil => rfl
  | cons kv f ih =>
    obtain ⟨k0, v⟩ := kv
    by_cases h0 : k0 = k
    · have h02 : ¬ k0 = k2 := by
        intro hEq
        exact hne (hEq ▸ h0)
      simp [popKey, lookupKey, List.eraseP_cons, List.find?_cons, h0, h02,
        show ¬ k = k2 from fun hh => hne hh.symm]
    · by_cases h02 : k0 = k2
      · simp [popKey, lookupKey, List.eraseP_cons, List.find?_cons, h0, h02, hne]
      · have hgoal := ih
        simp only [popKey, lookupKey] at hgoal
        simp [popKey, lookupKey, List.eraseP_cons, List.find?_cons, h0, h02]
        exact hgoal

theorem streamline_headers_ok_of_wf {fields : List (String × JVal)} {v : JVal}
    (hl : lookupKey "deltacode_errors" fields = some v) (hv : isStrArr v = true) :
    streamline_headers fields =
      Except.ok (setKey "deltacode_errors" (streamlineStrArr v)
        (popKey "deltacode_options" (popKey "deltacode_version" fields))) := by
  have h1 : lookupKey "deltacode_errors"
      (popKey "deltacode_options" (popKey "deltacode_version" fields)) = some v := by
    rw [lookup_popKey (by decide), lookup_popKey (by decide)]
    exact hl
  simp only [streamline_headers, h1, streamlineErrorsVal_of_isStrArr hv]

theorem load_ok_of_wf (sr : ScanResults) (rfd : Bool) (h : wfScanB sr = true) :
    load_json_result_from_string sr rfd =
      Except.ok
        { fields := setKey "deltacode_errors"
            (streamlineStrArr ((lookupKey "deltacode_errors" sr.fields).getD JVal.null))
            (popKey "deltacode_options" (popKey "deltacode_version" sr.fields)),
          deltas := pySort scoreGe (pySort factorsLe sr.deltas) } := by
  simp only [wfScanB] at h
  cases hl : lookupKey "deltacode_errors" sr.fields with
  | none => rw [hl] at h; simp at h
  | some v =>
    rw [hl] at h
    simp only [load_json_result_from_string, streamline_headers_ok_of_wf hl h]
    simp [hl]

theorem load_deltas {sr out : ScanResults} {rfd : Bool}
    (h : load_json_result_from_string sr rfd = Except.ok out) :
    out.deltas = pySort scoreGe (pySort factorsLe sr.deltas) := by
  simp only [load_json_result_from_string] at h
  cases hs : streamline_headers sr.fields with
  | error e => rw [hs] at h; simp at h
  | ok fields2 =>
    rw [hs] at h
    simp only [Except.ok.injEq] at h
    rw [← h]

theorem deltas_sorted_lexComb (ds : List Delta) :
    (pySort scoreGe (pySort factorsLe ds)).Pairwise
      (lexComb scoreGe factorsLe · · = true) := by
  rw [pySort_pySort scoreGe factorsLe scoreGe_trans scoreGe_total
      factorsLe_trans factorsLe_total ds,
    pySort_eq_mergeSort (lexComb_trans scoreGe factorsLe scoreGe_trans factorsLe_trans)
      (lexComb_total scoreGe factorsLe scoreGe_total factorsLe_total) ds]
  exact List.sorted_mergeSort
    (lexComb_trans scoreGe factorsLe scoreGe_trans factorsLe_trans)
    (lexComb_total scoreGe factorsLe scoreGe_total factorsLe_total) ds

theorem lexComb_true_elim {α : Type} {le1 le2 : α → α → Bool} {a b : α}
    (h : lexComb le1 le2 a b = true) :
    le1 a b = true ∧ (le1 b a = true → le2 a b = true) := by
  unfold lexComb at h
  by_cases h1 : le1 a b = true
  · by_cases h2 : le1 b a = true
    · simp only [h1, h2, if_true] at h
      exact ⟨h1, fun _ => h⟩
    · exact ⟨h1, fun hh => absurd hh h2⟩
  · simp [h1] at h

/-! ### Section 8: claim-level relations and example inputs -/

/-- The ordering claimed for the normalized deltas list: primary score
descending; among deltas of equal score, factors ascending. -/
def scoreFactorsRel (a b : Delta) : Prop :=
  b.score < a.score ∨ (a.score = b.score ∧ (factorsCmp a.factors b.factors).isLE = true)

instance (a b : Delta) : Decidable (scoreFactorsRel a b) := by
  unfold scoreFactorsRel
  infer_instance

/-- Strict ordering by the triple (score descending, canonical factors
ascending, path ascending), as the specification's Ranker describes. -/
def tripleLt (a b : Delta) : Prop :=
  b.score < a.score ∨
    (a.score = b.score ∧ (factorsCmp a.factors b.factors = Ordering.lt ∨
      (a.factors = b.factors ∧ strCmp a.path b.path = Ordering.lt)))

instance (a b : Delta) : Decidable (tripleLt a b) := by
  unfold tripleLt
  infer_instance

/-- The two sequential in-place stable sorts that
`load_json_result_from_string` performs on the deltas list: first by
`factors` ascending, then by `score` descending. -/
def twoStageSort (ds : List Delta) : List Delta :=
  pySort scoreGe (pySort factorsLe ds)

/-- The specification's Ranker sort, following its words: a single stable
sort with one comparator combining (score descending, factors-canonical-key
ascending, path ascending). -/
def rankerSort (ds : List Delta) : List Delta :=
  pySort (lexComb (lexComb scoreGe factorsLe) pathLe) ds

/-- Example scan result with a multi-line error and two unequal deltas. -/
def exScan : ScanResults :=
  { fields := [("deltacode_errors", JVal.arr [JVal.str "boom\nmid\nend".data])],
    deltas := [{ score := 50, factors := ["license change"], path := "a.txt", rest := [] },
               { score := 100, factors := [], path := "b.txt", rest := [] }] }

/-- The normalized form of `exScan`. -/
def exScanOut : ScanResults :=
  { fields := [("deltacode_errors", JVal.arr [JVal.str "boom\nend".data])],
    deltas := [{ score := 100, factors := [], path := "b.txt", rest := [] },
               { score := 50, factors := ["license change"], path := "a.txt", rest := [] }] }

/-- Delta with path `"b"`, fully tied with `exDeltaA` on score and factors. -/
def exDeltaB : Delta := { score := 1, factors := [], path := "b", rest := [] }

/-- Delta with path `"a"`, fully tied with `exDeltaB` on score and factors. -/
def exDeltaA : Delta := { score := 1, factors := [], path := "a", rest := [] }

/-- Example scan result with two deltas tied on score and factors, with
paths out of ascending order. -/
def exTie : ScanResults :=
  { fields := [("deltacode_errors", JVal.arr [])],
    deltas := [exDeltaB, exDeltaA] }

/-- The normalized form of `exTie`: the full tie keeps its input order. -/
def exTieOut : ScanResults :=
  { fields := [("deltacode_errors", JVal.arr [])],
    deltas := [exDeltaB, exDeltaA] }

/-! ### Section 9: the claims -/

/-- C1: for every well-formed scan-result mapping (every delta carries a
score and a factors value by construction), the `deltas` list returned by
`load_json_result_from_string` is sorted with primary order score
descending and, among deltas of equal score, factors ascending. -/
theorem claim_c1_sorted (sr : ScanResults) (rfd : Bool) (out : ScanResults)
    (h : load_json_result_from_string sr rfd = Except.ok out) :
    out.deltas.Pairwise scoreFactorsRel := by
  rw [load_deltas h]
  refine (deltas_sorted_lexComb sr.deltas).imp ?_
  intro a b hab
  obtain ⟨hab1, hab2⟩ := lexComb_true_elim hab
  have hba : b.score ≤ a.score := by
    simpa only [scoreGe, decide_eq_true_eq] using hab1
  by_cases h2 : a.score ≤ b.score
  · have hf : factorsLe a b = true := hab2 (by simp [scoreGe, h2])
    exact Or.inr ⟨le_antisymm h2 hba, hf⟩
  · exact Or.inl (lt_of_le_not_le hba h2)

/-- Witness for C1 at the concrete input `exScan`. -/
theorem claim_c1_sorted_witness : exScanOut.deltas.Pairwise scoreFactorsRel :=
  claim_c1_sorted exScan false exScanOut rfl

/-- C2 as stated is false: deltas tied on score and factors are not ordered
by path; on `exTie` the output keeps the non-path-sorted input order. -/
theorem claim_c2_counterexample :
    ¬ (∀ (sr : ScanResults) (rfd : Bool) (out : ScanResults),
        load_json_result_from_string sr rfd = Except.ok out →
        out.deltas.Pairwise tripleLt) := by
  intro h
  have hp := h exTie false exTieOut rfl
  have hd : tripleLt exDeltaB exDeltaA :=
    List.rel_of_pairwise_cons hp (List.mem_cons_self _ _)
  exact absurd hd (by decide)

/-- C2 amended: the two-stage sort strictly orders any two deltas that
differ in score or in factors by (score descending, factors ascending);
deltas equal on both stay in their input order and are not path-ordered. -/
theorem claim_c2_amended (sr : ScanResults) (rfd : Bool) (out : ScanResults)
    (h : load_json_result_from_string sr rfd = Except.ok out) :
    out.deltas.Pairwise (fun a b =>
      (a.score ≠ b.score ∨ a.factors ≠ b.factors) →
        (b.score < a.score ∨
          (a.score = b.score ∧ factorsCmp a.factors b.factors = Ordering.lt))) := by
  rw [load_deltas h]
  refine (deltas_sorted_lexComb sr.deltas).imp ?_
  intro a b hab hne
  obtain ⟨hab1, hab2⟩ := lexComb_true_elim hab
  have hba : b.score ≤ a.score := by
    simpa only [scoreGe, decide_eq_true_eq] using hab1
  by_cases h2 : a.score ≤ b.score
  · have hf : factorsLe a b = true := hab2 (by simp [scoreGe, h2])
    have hsc : a.score = b.score := le_antisymm h2 hba
    have hfne : a.factors ≠ b.factors := by
      rcases hne with hs | hfn
      · exact absurd hsc hs
      · exact hfn
    refine Or.inr ⟨hsc, ?_⟩
    simp only [factorsLe] at hf
    cases hcmp : factorsCmp a.factors b.factors with
    | lt => rfl
    | eq => exact absurd (factorsCmp_law.eq_exact _ _ hcmp) hfne
    | gt => rw [hcmp] at hf; simp [Ordering.isLE] at hf
  · exact Or.inl (lt_of_le_not_le hba h2)

/-- Witness for the amended C2 at the concrete input `exScan`. -/
theorem claim_c2_amended_witness :
    exScanOut.deltas.Pairwise (fun a b =>
      (a.score ≠ b.score ∨ a.factors ≠ b.factors) →
        (b.score < a.score ∨
          (a.score = b.score ∧ factorsCmp a.factors b.factors = Ordering.lt))) :=
  claim_c2_amended exScan false exScanOut rfl

/-- C3 as stated is false: the two sequential stable sorts differ from the
single combined (score desc, factors asc, path asc) sort on a full tie. -/
theorem claim_c3_counterexample :
    twoStageSort [exDeltaB, exDeltaA] ≠ rankerSort [exDeltaB, exDeltaA] := by
  decide

/-- C3 amended: for every list of deltas, the two sequential stable sorts
equal one single stable sort with the comparator combining score descending
and factors ascending (with no path tie-break; full ties keep input order). -/
theorem claim_c3_amended (ds : List Delta) :
    twoStageSort ds = pySort (lexComb scoreGe factorsLe) ds :=
  pySort_pySort scoreGe factorsLe scoreGe_trans scoreGe_total
    factorsLe_trans factorsLe_total ds

/-- C4: normalization is deterministic; two runs of
`load_json_result_from_string` on equal inputs with equal flags return
identical results (the model is a pure function of the decoded document, in
particular the returned order of `deltas` is reproducible). -/
theorem claim_c4_deterministic (s1 s2 : ScanResults) (rfd1 rfd2 : Bool)
    (h : s1 = s2) (h2 : rfd1 = rfd2) :
    load_json_result_from_string s1 rfd1 = load_json_result_from_string s2 rfd2 := by
  rw [h, h2]

/-- Witness for C4 at the concrete input `exScan`. -/
theorem claim_c4_deterministic_witness :
    load_json_result_from_string exScan false = load_json_result_from_string exScan false :=
  claim_c4_deterministic exScan exScan false false rfl rfl

/-- C7: `load_json_result_from_string` is total on well-formed input: when
the root mapping has a `deltacode_errors` entry holding a list of strings
(and a `deltas` list of deltas, which the model carries by construction),
the function returns normally. -/
theorem claim_c7_total (sr : ScanResults) (rfd : Bool) (h : wfScanB sr = true) :
    ∃ out, load_json_result_from_string sr rfd = Except.ok out :=
  ⟨_, load_ok_of_wf sr rfd h⟩

/-- Witness for C7 at the concrete input `exScan`. -/
theorem claim_c7_total_witness :
    ∃ out, load_json_result_from_string exScan false = Except.ok out :=
  claim_c7_total exScan false (by decide)

/-- C8: `streamline_errors` preserves the length of the errors list; an
error with at most one line is left unchanged; an error with two or more
lines is replaced by the concatenation of its first and last line; and
applying `streamline_errors` twice equals applying it once. -/
theorem claim_c8_streamline_errors (errors : List PyStr) (e : PyStr) :
    (streamline_errors errors).length = errors.length ∧
    ((splitLinesKeep e).length ≤ 1 → streamlineOne e = e) ∧
    (2 ≤ (splitLinesKeep e).length →
      streamlineOne e = (splitLinesKeep e).headI ++ (splitLinesKeep e).getLastI) ∧
    streamline_errors (streamline_errors errors) = streamline_errors errors :=
  ⟨streamline_errors_length errors,
   fun h => streamlineOne_short h,
   fun h => streamlineOne_long h,
   streamline_errors_idem errors⟩

/-- Witness for C8: a one-line error is unchanged, a three-line error
becomes first plus last line, and streamlining twice equals streamlining
once, at concrete inputs. -/
theorem claim_c8_streamline_errors_witness :
    streamlineOne "ab".data = "ab".data ∧
    streamlineOne "a\nb\nc".data =
      (splitLinesKeep "a\nb\nc".data).headI ++ (splitLinesKeep "a\nb\nc".data).getLastI ∧
    streamline_errors (streamline_errors ["a\nb\nc".data]) =
      streamline_errors ["a\nb\nc".data] :=
  ⟨(claim_c8_streamline_errors ["ab".data] "ab".data).2.1 (by decide),
   (claim_c8_streamline_errors ["a\nb\nc".data] "a\nb\nc".data).2.2.1 (by decide),
   (claim_c8_streamline_errors ["a\nb\nc".data] "a\nb\nc".data).2.2.2⟩

theorem filterMap_id_of_no_key {k : String} :
    ∀ (f : List (String × JVal)), (∀ kv ∈ f, kv.1 ≠ k) →
    f.filterMap (fun kv => if kv.1 = k then none else some kv) = f := by
  intro f
  induction f with
  | nil => intro _; rfl
  | cons kv0 f ih =>
    intro h
    have h0 : ¬ kv0.1 = k := h kv0 (List.mem_cons_self _ _)
    simp only [List.filterMap_cons, h0, if_false]
    rw [ih (fun kv hkv => h kv (List.mem_cons_of_mem _ hkv))]

theorem popKey_eq_filterMap {k : String} :
    ∀ (fields : List (String × JVal)), (fields.map Prod.fst).Nodup →
    popKey k fields = fields.filterMap (fun kv => if kv.1 = k then none else some kv) := by
  intro fields
  induction fields with
  | nil => intro _; rfl
  | cons kv0 f ih =>
    intro hnd
    simp only [List.map_cons, List.nodup_cons] at hnd
    obtain ⟨hk0, hnd'⟩ := hnd
    by_cases h0 : kv0.1 = k
    · have hno : ∀ kv ∈ f, kv.1 ≠ k := by
        intro kv hkv hEq
        exact hk0 (by rw [h0, ← hEq]; exact List.mem_map_of_mem Prod.fst hkv)
      simp only [popKey]
      rw [List.eraseP_cons]
      simp [h0]
      exact (filterMap_id_of_no_key f hno).symm
    · simp only [popKey] at ih ⊢
      rw [List.eraseP_cons]
      simp [h0]
      rw [ih hnd']

theorem lookupKey_of_mem_nodup :
    ∀ (fields : List (String × JVal)), (fields.map Prod.fst).Nodup →
    ∀ kv ∈ fields, lookupKey kv.1 fields = some kv.2 := by
  intro fields
  induction fields with
  | nil => intro _ kv h; simp at h
  | cons kv0 f ih =>
    intro hnd kv hkv
    simp only [List.map_cons, List.nodup_cons] at hnd
    obtain ⟨hk0, hnd'⟩ := hnd
    rcases List.mem_cons.mp hkv with rfl | hkv'
    · simp [lookupKey, List.find?_cons]
    · have hne : ¬ kv0.1 = kv.1 := by
        intro hEq
        exact hk0 (by rw [hEq]; exact List.mem_map_of_mem Prod.fst hkv')
      simp only [lookupKey, List.find?_cons]
      simp [hne]
      have hr := ih hnd' kv hkv'
      simpa [lookupKey] using hr

/-- C9: on a headers mapping (with unique keys, as decoded JSON objects
have) containing a well-formed `deltacode_errors` entry,
`streamline_headers` removes exactly the `deltacode_version` and
`deltacode_options` entries (a no-op for each when absent), streamlines the
`deltacode_errors` value in place, and leaves every other entry unchanged
in key, value and relative order. -/
theorem claim_c9_streamline_headers (fields : List (String × JVal)) (v : JVal)
    (hnd : (fields.map Prod.fst).Nodup)
    (hl : lookupKey "deltacode_errors" fields = some v)
    (hv : isStrArr v = true) :
    streamline_headers fields = Except.ok (fields.filterMap (fun kv =>
      if kv.1 = "deltacode_version" ∨ kv.1 = "deltacode_options" then none
      else if kv.1 = "deltacode_errors" then some (kv.1, streamlineStrArr kv.2)
      else some kv)) := by
  rw [streamline_headers_ok_of_wf hl hv]
  congr 1
  have hnd1 : ((popKey "deltacode_version" fields).map Prod.fst).Nodup :=
    List.Nodup.sublist (List.Sublist.map Prod.fst (List.eraseP_sublist fields)) hnd
  rw [popKey_eq_filterMap (popKey "deltacode_version" fields) hnd1,
    popKey_eq_filterMap fields hnd, List.filterMap_filterMap]
  simp only [setKey]
  rw [List.map_filterMap]
  apply List.filterMap_congr
  intro kv hkv
  have hval : kv.1 = "deltacode_errors" → kv.2 = v := by
    intro hk
    have hu := lookupKey_of_mem_nodup fields hnd kv hkv
    rw [hk, hl] at hu
    exact (Option.some.inj hu).symm
  by_cases h1 : kv.1 = "deltacode_version"
  · simp [h1]
  · by_cases h2 : kv.1 = "deltacode_options"
    · simp [h1, h2]
    · by_cases h3 : kv.1 = "deltacode_errors"
      · have hveq := hval h3
        simp [h1, h2, h3, hveq]
      · simp [h1, h2, h3]

/-- Example headers mapping for the C9 witness: a version entry to drop, an
errors entry to streamline, and an unrelated entry to keep. -/
def exHeaders : List (String × JVal) :=
  [("deltacode_version", JVal.str "1.0".data),
   ("deltacode_errors", JVal.arr [JVal.str "x\ny\nz".data]),
   ("other", JVal.num 7)]

/-- Witness for C9 at the concrete mapping `exHeaders`. -/
theorem claim_c9_streamline_headers_witness :
    streamline_headers exHeaders = Except.ok (exHeaders.filterMap (fun kv =>
      if kv.1 = "deltacode_version" ∨ kv.1 = "deltacode_options" then none
      else if kv.1 = "deltacode_errors" then some (kv.1, streamlineStrArr kv.2)
      else some kv)) :=
  claim_c9_streamline_headers exHeaders (JVal.arr [JVal.str "x\ny\nz".data])
    (by decide) (by decide) (by decide)

/-- C5: with `regen=False` and well-formed files, `check_json_scan` leaves
both files unchanged, raises an assertion failure exactly when the two
normalized serializations (load, streamline headers and errors, sort
deltas, optionally drop `headers`, serialize with sorted keys) differ, and
returns without error when they are equal. -/
theorem claim_c5_check_json_scan (fs : Files) (rfd ih : Bool)
    (h1 : wfScanB fs.expected_file = true) (h2 : wfScanB fs.result_file = true) :
    (check_json_scan fs false rfd ih).1 = fs ∧
    ((check_json_scan fs false rfd ih).2 = Except.error PyErr.assertionError ↔
      canonOf fs.expected_file rfd ih ≠ canonOf fs.result_file rfd ih) ∧
    (canonOf fs.expected_file rfd ih = canonOf fs.result_file rfd ih →
      (check_json_scan fs false rfd ih).2 = Except.ok ()) := by
  have hre := load_ok_of_wf fs.result_file rfd h2
  have hee := load_ok_of_wf fs.expected_file rfd h1
  by_cases hc : canonOf fs.expected_file rfd ih = canonOf fs.result_file rfd ih
  · have hceq : canonScan
        (if ih then popHeaders
          { fields := setKey "deltacode_errors"
              (streamlineStrArr ((lookupKey "deltacode_errors"
                fs.expected_file.fields).getD JVal.null))
              (popKey "deltacode_options" (popKey "deltacode_version"
                fs.expected_file.fields)),
            deltas := pySort scoreGe (pySort factorsLe fs.expected_file.deltas) }
          else
          { fields := setKey "deltacode_errors"
              (streamlineStrArr ((lookupKey "deltacode_errors"
                fs.expected_file.fields).getD JVal.null))
              (popKey "deltacode_options" (popKey "deltacode_version"
                fs.expected_file.fields)),
            deltas := pySort scoreGe (pySort factorsLe fs.expected_file.deltas) }) =
        canonScan
        (if ih then popHeaders
          { fields := setKey "deltacode_errors"
              (streamlineStrArr ((lookupKey "deltacode_errors"
                fs.result_file.fields).getD JVal.null))
              (popKey "deltacode_options" (popKey "deltacode_version"
                fs.result_file.fields)),
            deltas := pySort scoreGe (pySort factorsLe fs.result_file.deltas) }
          else
          { fields := setKey "deltacode_errors"
              (streamlineStrArr ((lookupKey "deltacode_errors"
                fs.result_file.fields).getD JVal.null))
              (popKey "deltacode_options" (popKey "deltacode_version"
                fs.result_file.fields)),
            deltas := pySort scoreGe (pySort factorsLe fs.result_file.deltas) }) := by
      have := hc
      simp only [canonOf, load_json_result, hre, hee] at this
      cases ihb : ih <;> rw [ihb] at this <;> simpa using this
    simp only [check_json_scan, load_json_result, hre, hee, Bool.false_eq_true, if_false]
    cases ihb : ih
    · simp only [Bool.false_eq_true, if_false]
      rw [ihb] at hceq hc
      simp only [Bool.false_eq_true, if_false] at hceq
      simp [hceq, hc]
    · simp only [if_true]
      rw [ihb] at hceq hc
      simp only [if_true] at hceq
      simp [hceq, hc]
  · have hcne : ¬ canonScan
        (if ih then popHeaders
          { fields := setKey "deltacode_errors"
              (streamlineStrArr ((lookupKey "deltacode_errors"
                fs.expected_file.fields).getD JVal.null))
              (popKey "deltacode_options" (popKey "deltacode_version"
                fs.expected_file.fields)),
            deltas := pySort scoreGe (pySort factorsLe fs.expected_file.deltas) }
          else
          { fields := setKey "deltacode_errors"
              (streamlineStrArr ((lookupKey "deltacode_errors"
                fs.expected_file.fields).getD JVal.null))
              (popKey "deltacode_options" (popKey "deltacode_version"
                fs.expected_file.fields)),
            deltas := pySort scoreGe (pySort factorsLe fs.expected_file.deltas) }) =
        canonScan
        (if ih then popHeaders
          { fields := setKey "deltacode_errors"
              (streamlineStrArr ((lookupKey "deltacode_errors"
                fs.result_file.fields).getD JVal.null))
              (popKey "deltacode_options" (popKey "deltacode_version"
                fs.result_file.fields)),
            deltas := pySort scoreGe (pySort factorsLe fs.result_file.deltas) }
          else
          { fields := setKey "deltacode_errors"
              (streamlineStrArr ((lookupKey "deltacode_errors"
                fs.result_file.fields).getD JVal.null))
              (popKey "deltacode_options" (popKey "deltacode_version"
                fs.result_file.fields)),
            deltas := pySort scoreGe (pySort factorsLe fs.result_file.deltas) }) := by
      intro hEq
      apply hc
      simp only [canonOf, load_json_result, hre, hee]
      cases ihb : ih <;> rw [ihb] at hEq <;> simp at hEq ⊢ <;> exact hEq
    simp only [check_json_scan, load_json_result, hre, hee, Bool.false_eq_true, if_false]
    cases ihb : ih
    · rw [ihb] at hcne hc
      simp only [Bool.false_eq_true, if_false] at hcne ⊢
      simp [hcne, hc]
    · rw [ihb] at hcne hc
      simp only [if_true] at hcne ⊢
      simp [hcne, hc]

/-- Witness for C5: two identical well-formed files compare equal, the
files are unchanged and no assertion failure is raised. -/
theorem claim_c5_check_json_scan_witness :
    (check_json_scan { expected_file := exScan, result_file := exScan } false false false).1 =
      { expected_file := exScan, result_file := exScan } ∧
    (check_json_scan { expected_file := exScan, result_file := exScan } false false false).2 =
      Except.ok () :=
  ⟨(claim_c5_check_json_scan { expected_file := exScan, result_file := exScan } false false
      (by decide) (by decide)).1,
   (claim_c5_check_json_scan { expected_file := exScan, result_file := exScan } false false
      (by decide) (by decide)).2.2 rfl⟩

/-! ### Section 10: the diff engine (spec-modelled, for claim C6)

The delta-detection engine itself is not part of the visible source
fragment; the definitions of this section are modelled from the
specification (sections 2-4 and 8 of the spec) to settle the completeness
claim about its Matcher. -/

/-- Modelled from the spec: a `FileRecord` of the missing engine: path,
non-negative size, content fingerprint and an ordered attribute mapping. -/
structure FileRecord where
  path : String
  size : Nat
  fingerprint : String
  attrs : List (String × String)
deriving DecidableEq

/-- Modelled from the spec: the kind of an engine Delta. -/
inductive DeltaKind where
  | unmodified : DeltaKind
  | moved : DeltaKind
  | modified : DeltaKind
  | removed : DeltaKind
  | added : DeltaKind
deriving DecidableEq

/-- Modelled from the spec: an engine Delta holds an optional old record,
an optional new record (at least one side populated by construction of the
Matcher) and its classified kind.  Factors and score are orthogonal to the
completeness claim and omitted. -/
structure MDelta where
  oldRec : Option FileRecord
  newRec : Option FileRecord
  kind : DeltaKind
deriving DecidableEq

/-- Modelled from the spec: Levenshtein edit distance between paths, with
explicit fuel (the initial fuel `s.length + t.length` always suffices, and
the value is irrelevant to the completeness claim). -/
def editDistanceFuel : Nat → List Char → List Char → Nat
  | _, [], t => t.length
  | _, s, [] => s.length
  | 0, _, _ => 0
  | fuel + 1, a :: s, b :: t =>
    if a = b then editDistanceFuel fuel s t
    else 1 + min (editDistanceFuel fuel s (b :: t))
      (min (editDistanceFuel fuel (a :: s) t) (editDistanceFuel fuel s t))

/-- Modelled from the spec: path edit distance. -/
def editDistance (s t : String) : Nat :=
  editDistanceFuel (s.data.length + t.data.length) s.data t.data

/-- Modelled from the spec: the generic greedy pairing stage of the
Matcher: each old record, in order, picks at most one new record from the
remaining pool (which it consumes); unmatched old records and the final
pool are the leftovers of the stage. -/
def greedyMatch (pick : FileRecord → List FileRecord → Option FileRecord) :
    List FileRecord → List FileRecord →
    List (FileRecord × FileRecord) × List FileRecord × List FileRecord
  | [], news => ([], [], news)
  | o :: olds, news =>
    match pick o news with
    | some n =>
      let r := greedyMatch pick olds (news.erase n)
      ((o, n) :: r.1, r.2.1, r.2.2)
    | none =>
      let r := greedyMatch pick olds news
      (r.1, o :: r.2.1, r.2.2)

/-- Modelled from the spec, Matcher stage 1: exact identity match —
identical fingerprint and identical path. -/
def pickExact (o : FileRecord) (ns : List FileRecord) : Option FileRecord :=
  ns.find? (fun n => decide (n.fingerprint = o.fingerprint) && decide (n.path = o.path))

/-- Modelled from the spec, Matcher stage 2: content match — remaining
records sharing a fingerprint, paired by smallest path-edit-distance
greedily with lexicographic path order as the stable tie-break (candidates
are pre-sorted by path, and `argmin` keeps the first minimum). -/
def pickMoved (o : FileRecord) (ns : List FileRecord) : Option FileRecord :=
  (pySort (fun a b : FileRecord => (strCmp a.path b.path).isLE)
    (ns.filter (fun n => decide (n.fingerprint = o.fingerprint)))).argmin
    (fun n => editDistance o.path n.path)

/-- Modelled from the spec, Matcher stage 3: path match, different
content. -/
def pickModified (o : FileRecord) (ns : List FileRecord) : Option FileRecord :=
  ns.find? (fun n => decide (n.path = o.path))

/-- Modelled from the spec: the Matcher pipeline producing the Report:
stage 1 pairs become Unmodified deltas, stage 2 pairs Moved, stage 3 pairs
Modified, leftover old records Removed and leftover new records Added. -/
def matchEngine (old new : List FileRecord) : List MDelta :=
  let s1 := greedyMatch pickExact old new
  let s2 := greedyMatch pickMoved s1.2.1 s1.2.2
  let s3 := greedyMatch pickModified s2.2.1 s2.2.2
  (s1.1.map (fun p => MDelta.mk (some p.1) (some p.2) DeltaKind.unmodified))
  ++ (s2.1.map (fun p => MDelta.mk (some p.1) (some p.2) DeltaKind.moved))
  ++ (s3.1.map (fun p => MDelta.mk (some p.1) (some p.2) DeltaKind.modified))
  ++ (s3.2.1.map (fun o => MDelta.mk (some o) none DeltaKind.removed))
  ++ (s3.2.2.map (fun n => MDelta.mk none (some n) DeltaKind.added))

theorem pickExact_mem {o n : FileRecord} {ns : List FileRecord}
    (h : pickExact o ns = some n) : n ∈ ns :=
  List.mem_of_find?_eq_some h

theorem pickMoved_mem {o n : FileRecord} {ns : List FileRecord}
    (h : pickMoved o ns = some n) : n ∈ ns := by
  have h1 := List.argmin_mem h
  have h2 := (pySort_perm _ _).subset h1
  exact List.mem_of_mem_filter h2

theorem pickModified_mem {o n : FileRecord} {ns : List FileRecord}
    (h : pickModified o ns = some n) : n ∈ ns :=
  List.mem_of_find?_eq_some h

theorem greedyMatch_perm (pick : FileRecord → List FileRecord → Option FileRecord)
    (hpick : ∀ o ns n, pick o ns = some n → n ∈ ns) :
    ∀ (olds news : List FileRecord),
    ((greedyMatch pick olds news).1.map Prod.fst ++
      (greedyMatch pick olds news).2.1).Perm olds ∧
    ((greedyMatch pick olds news).1.map Prod.snd ++
      (greedyMatch pick olds news).2.2).Perm news := by
  intro olds
  induction olds with
  | nil => intro news; simp [greedyMatch]
  | cons o olds ih =>
    intro news
    rw [greedyMatch.eq_def]
    cases hp : pick o news with
    | some n =>
      simp only [hp]
      obtain ⟨ih1, ih2⟩ := ih (news.erase n)
      constructor
      · simpa using ih1.cons o
      · simp only [List.map_cons, List.cons_append]
        have hn : n ∈ news := hpick o news n hp
        exact (ih2.cons n).trans (List.perm_cons_erase hn).symm
    | none =>
      simp only [hp]
      obtain ⟨ih1, ih2⟩ := ih news
      constructor
      · simpa using List.perm_middle.trans (ih1.cons o)
      · simpa using ih2

theorem filterMap_some_of {α β : Type} (f : α → β) (l : List α) :
    l.filterMap (fun a => some (f a)) = l.map f := by
  induction l with
  | nil => rfl
  | cons a t ih => simp [List.filterMap_cons, ih]

theorem filterMap_none_of {α β : Type} (l : List α) :
    l.filterMap (fun _ => (none : Option β)) = [] := by
  induction l with
  | nil => rfl
  | cons a t ih => simp [List.filterMap_cons, ih]

theorem matchEngine_oldSide (old new : List FileRecord) :
    ((matchEngine old new).filterMap (fun d => d.oldRec)).Perm old := by
  have h1 := greedyMatch_perm pickExact (fun o ns n h => pickExact_mem h) old new
  have h2 := greedyMatch_perm pickMoved (fun o ns n h => pickMoved_mem h)
    (greedyMatch pickExact old new).2.1 (greedyMatch pickExact old new).2.2
  have h3 := greedyMatch_perm pickModified (fun o ns n h => pickModified_mem h)
    (greedyMatch pickMoved (greedyMatch pickExact old new).2.1
      (greedyMatch pickExact old new).2.2).2.1
    (greedyMatch pickMoved (greedyMatch pickExact old new).2.1
      (greedyMatch pickExact old new).2.2).2.2
  simp only [matchEngine, List.filterMap_append, List.filterMap_map, Function.comp_def,
    filterMap_some_of, filterMap_none_of, List.append_nil, List.nil_append, List.map_id,
    List.filterMap_some, List.append_assoc]
  refine List.Perm.trans ?_ h1.1
  refine List.Perm.append_left _ ?_
  refine List.Perm.trans ?_ h2.1
  refine List.Perm.append_left _ ?_
  exact h3.1

theorem matchEngine_newSide (old new : List FileRecord) :
    ((matchEngine old new).filterMap (fun d => d.newRec)).Perm new := by
  have h1 := greedyMatch_perm pickExact (fun o ns n h => pickExact_mem h) old new
  have h2 := greedyMatch_perm pickMoved (fun o ns n h => pickMoved_mem h)
    (greedyMatch pickExact old new).2.1 (greedyMatch pickExact old new).2.2
  have h3 := greedyMatch_perm pickModified (fun o ns n h => pickModified_mem h)
    (greedyMatch pickMoved (greedyMatch pickExact old new).2.1
      (greedyMatch pickExact old new).2.2).2.1
    (greedyMatch pickMoved (greedyMatch pickExact old new).2.1
      (greedyMatch pickExact old new).2.2).2.2
  simp only [matchEngine, List.filterMap_append, List.filterMap_map, Function.comp_def,
    filterMap_some_of, filterMap_none_of, List.append_nil, List.nil_append, List.map_id,
    List.filterMap_some, List.append_assoc]
  refine List.Perm.trans ?_ h1.2
  refine List.Perm.append_left _ ?_
  refine List.Perm.trans ?_ h2.2
  refine List.Perm.append_left _ ?_
  exact h3.2

/-- C6 (spec-modelled): completeness of the diff engine's output: the old
sides of the Report are a permutation of `old`, the new sides a permutation
of `new`, and for duplicate-path-free snapshots every old record and every
new record appears in exactly one Delta (no record matched twice). -/
theorem claim_c6_completeness (old new : List FileRecord) :
    ((matchEngine old new).filterMap (fun d => d.oldRec)).Perm old ∧
    ((matchEngine old new).filterMap (fun d => d.newRec)).Perm new ∧
    ((old.map FileRecord.path).Nodup → ∀ r ∈ old,
      ((matchEngine old new).filterMap (fun d => d.oldRec)).count r = 1) ∧
    ((new.map FileRecord.path).Nodup → ∀ r ∈ new,
      ((matchEngine old new).filterMap (fun d => d.newRec)).count r = 1) := by
  refine ⟨matchEngine_oldSide old new, matchEngine_newSide old new, ?_, ?_⟩
  · intro hnd r hr
    rw [(matchEngine_oldSide old new).count_eq]
    exact List.count_eq_one_of_mem (List.Nodup.of_map FileRecord.path hnd) hr
  · intro hnd r hr
    rw [(matchEngine_newSide old new).count_eq]
    exact List.count_eq_one_of_mem (List.Nodup.of_map FileRecord.path hnd) hr

/-- Old snapshot of the spec's own worked example: one file `a/b.txt`. -/
def exOldSnap : List FileRecord :=
  [{ path := "a/b.txt", size := 10, fingerprint := "X", attrs := [] }]

/-- New snapshot of the spec's own worked example: the same content at
`a/c.txt`. -/
def exNewSnap : List FileRecord :=
  [{ path := "a/c.txt", size := 10, fingerprint := "X", attrs := [] }]

/-- Witness for C6 at the spec's worked example: each record appears in
exactly one Delta. -/
theorem claim_c6_completeness_witness :
    ((matchEngine exOldSnap exNewSnap).filterMap (fun d => d.oldRec)).count
      { path := "a/b.txt", size := 10, fingerprint := "X", attrs := [] } = 1 ∧
    ((matchEngine exOldSnap exNewSnap).filterMap (fun d => d.newRec)).count
      { path := "a/c.txt", size := 10, fingerprint := "X", attrs := [] } = 1 :=
  ⟨(claim_c6_completeness exOldSnap exNewSnap).2.2.1 (by decide) _ (by decide),
   (claim_c6_completeness exOldSnap exNewSnap).2.2.2 (by decide) _ (by decide)⟩
